import Mathlib

/-!
Verification of the ap-kcp repository (a KCP-style ARQ transport over UDP)
against its natural-language specification.

The repository ships `src/main.rs` (proxy application, UDP listener fan-out,
relay loop, algorithm selection) and `benches/bench.rs`.  The protocol modules
it declares (`core`, `segment`, `crypto`, `async_kcp`, `error`) are not part of
the source tree, so the KCP core, the segment codec and the RTT estimator are
modelled here from the specification text; every such definition carries a
doc comment starting with `Modelled from the spec:`.  Definitions derived
from `src/main.rs` cite the function they embed.
-/

namespace ApKcp

/-- Modelled from the spec: error kinds of §7 (the repository's `error`
module is not in the source tree). -/
inductive KcpError where
  | invalidSegment
  | unknownConv
  | convExists
  | sendQueueFull
  | streamClosed
  | transportClosed
  | ioError
  | deadLink
  | cryptoFailure
deriving DecidableEq, Repr

/-- Modelled from the spec: a protocol segment, the atomic PDU of §3.
Bytes are represented as natural numbers below 256. -/
structure Segment where
  conv : Nat
  cmd : Nat
  frg : Nat
  wnd : Nat
  ts : Nat
  sn : Nat
  una : Nat
  payload : List Nat
deriving DecidableEq, Repr

/-- Modelled from the spec: the seven commands of §3.  The spec fixes the
set {PUSH, ACK, WASK, WINS, PING, FIN, SYN} but not their byte encodings;
distinct byte values are assigned here. -/
def cmdPush : Nat := 0

/-- Modelled from the spec: the ACK command byte. -/
def cmdAck : Nat := 1

/-- Modelled from the spec: the WASK (window ask) command byte. -/
def cmdWask : Nat := 2

/-- Modelled from the spec: the WINS (window answer) command byte. -/
def cmdWins : Nat := 3

/-- Modelled from the spec: the PING command byte. -/
def cmdPing : Nat := 4

/-- Modelled from the spec: the FIN command byte. -/
def cmdFin : Nat := 5

/-- Modelled from the spec: the SYN command byte. -/
def cmdSyn : Nat := 6

/-- Modelled from the spec: a command byte is valid when it is one of the
seven known commands of §3. -/
def validCmd (c : Nat) : Bool :=
  c = cmdPush || c = cmdAck || c = cmdWask || c = cmdWins ||
  c = cmdPing || c = cmdFin || c = cmdSyn

/-- Little-endian 16-bit read from the first two bytes of a list
(missing bytes read as 0). -/
def u16le (b : List Nat) : Nat :=
  b.getD 0 0 + 256 * b.getD 1 0

/-- Little-endian 32-bit read from the first four bytes of a list
(missing bytes read as 0). -/
def u32le (b : List Nat) : Nat :=
  b.getD 0 0 + 256 * b.getD 1 0 + 65536 * b.getD 2 0 + 16777216 * b.getD 3 0

/-- Modelled from the spec: the fixed header size of §4.1:
`conv(4) | cmd(1) | frg(1) | wnd(2) | ts(4) | sn(4) | una(4) | len(2)`. -/
def headerSize : Nat := 24

/-- Modelled from the spec: the `len` field of the segment header, bytes 22
and 23, little-endian (§4.1). -/
def segLen (buf : List Nat) : Nat :=
  u16le (buf.drop 22)

/-- Modelled from the spec: parse the 24-byte header of §4.1 plus `len`
payload bytes out of a buffer known to be long enough. -/
def parseSeg (buf : List Nat) : Segment :=
  { conv := u32le buf
    cmd := buf.getD 4 0
    frg := buf.getD 5 0
    wnd := u16le (buf.drop 6)
    ts := u32le (buf.drop 8)
    sn := u32le (buf.drop 12)
    una := u32le (buf.drop 16)
    payload := (buf.drop headerSize).take (segLen buf) }

/-- Modelled from the spec: decode a datagram into its list of segments
(§4.1).  The whole datagram fails with `InvalidSegment` on a truncated
header, an unknown `cmd`, or a `len` field exceeding the remaining buffer;
an empty rest terminates the segment list. -/
def decodeSegments (buf : List Nat) : Except KcpError (List Segment) :=
  if h0 : buf = [] then .ok []
  else if buf.length < headerSize then .error .invalidSegment
  else if ¬ validCmd (buf.getD 4 0) then .error .invalidSegment
  else if buf.length - headerSize < segLen buf then .error .invalidSegment
  else
    match decodeSegments (buf.drop (headerSize + segLen buf)) with
    | .ok segs => .ok (parseSeg buf :: segs)
    | .error e => .error e
termination_by buf.length
decreasing_by
  have hpos : 0 < buf.length := List.length_pos.mpr h0
  simp only [List.length_drop, headerSize]
  omega

/-- Modelled from the spec: the configuration options of §6 with their
defaults (`KcpConfig::default()` is used by `src/main.rs` but the `core`
module is not in the source tree). -/
structure KcpConfig where
  mtu : Nat
  interval : Nat
  nodelay : Bool
  resend : Nat
  nc : Bool
  snd_wnd : Nat
  rcv_wnd : Nat
  rto_min : Nat
  rto_max : Nat
  dead_link : Nat
deriving DecidableEq, Repr

/-- Modelled from the spec: the default configuration values listed in §6. -/
def defaultKcpConfig : KcpConfig :=
  { mtu := 1400
    interval := 10
    nodelay := false
    resend := 0
    nc := false
    snd_wnd := 1024
    rcv_wnd := 1024
    rto_min := 100
    rto_max := 60000
    dead_link := 20 }

/-- Modelled from the spec: one in-flight entry of the send buffer (§3
stream state, sender side). -/
structure SendEntry where
  sn : Nat
  ts : Nat
  frg : Nat
  fastack : Nat
  xmit : Nat
  resendts : Nat
  payload : List Nat
deriving DecidableEq, Repr

/-- Modelled from the spec: the per-conversation stream state of §3 that
`input` touches: sender counters and send buffer, receiver buffer and
queue, pending ACK list, peer window and the RTT estimator. -/
structure StreamState where
  conv : Nat
  snd_una : Nat
  snd_nxt : Nat
  snd_buf : List SendEntry
  rcv_nxt : Nat
  rcv_buf : List Segment
  rcv_queue : List Segment
  ack_list : List (Nat × Nat)
  rmt_wnd : Nat
  probe_wins : Bool
  current : Nat
  rx_srtt : Nat
  rx_rttvar : Nat
  rx_rto : Nat
deriving DecidableEq, Repr

/-- Running minimum of the `sn` fields of a send buffer, seeded with `x`. -/
def minSnFrom (x : Nat) : List SendEntry → Nat
  | [] => x
  | e :: rest => minSnFrom (min x e.sn) rest

/-- Smallest `sn` occurring in a send buffer, or `none` when it is empty. -/
def minSn : List SendEntry → Option Nat
  | [] => none
  | e :: rest => some (minSnFrom e.sn rest)

/-- Modelled from the spec: advance `snd_una` to the smallest sn still in
the send buffer, or `snd_nxt` if the buffer is empty (§4.2, ACK handling). -/
def update_una (st : StreamState) : StreamState :=
  { st with snd_una := match minSn st.snd_buf with
                       | none => st.snd_nxt
                       | some m => m }

/-- Clamp a natural number into the interval `[lo, hi]`. -/
def clampNat (x lo hi : Nat) : Nat :=
  Nat.max lo (Nat.min x hi)

/-- Modelled from the spec: the Jacobson RTT update of §4.2:
`rttvar = 3/4·rttvar + 1/4·|srtt-sample|`, `srtt = 7/8·srtt + 1/8·sample`,
`rto = clamp(srtt + max(interval, 4·rttvar), rto_min, rto_max)`, in integer
arithmetic. -/
def rtt_update (cfg : KcpConfig) (st : StreamState) (sample : Nat) : StreamState :=
  let delta := Int.natAbs ((st.rx_srtt : Int) - (sample : Int))
  let rttvar := 3 * st.rx_rttvar / 4 + delta / 4
  let srtt := 7 * st.rx_srtt / 8 + sample / 8
  let rto := clampNat (srtt + Nat.max cfg.interval (4 * rttvar)) cfg.rto_min cfg.rto_max
  { st with rx_srtt := srtt, rx_rttvar := rttvar, rx_rto := rto }

/-- Modelled from the spec: processing of a received ACK with `sn = k` and
timestamp `t` (§4.2, ACK handling): update the RTT estimator from the
sample `current - t` (ignored when negative), remove the send-buffer entry
with sn `k`, increment `fastack` of entries with smaller sn, and advance
`snd_una`. -/
def handle_ack (cfg : KcpConfig) (st : StreamState) (k t : Nat) : StreamState :=
  let st1 := if t ≤ st.current then rtt_update cfg st (st.current - t) else st
  let buf1 := st1.snd_buf.filter (fun e => e.sn ≠ k)
  let buf2 := buf1.map (fun e =>
    if e.sn < k then { e with fastack := e.fastack + 1 } else e)
  update_una { st1 with snd_buf := buf2 }

/-- Modelled from the spec: UNA handling of §4.2: remove all send-buffer
entries with `sn < una`, then advance `snd_una`. -/
def handle_una (st : StreamState) (una : Nat) : StreamState :=
  update_una { st with snd_buf := st.snd_buf.filter (fun e => ¬ e.sn < una) }

/-- Modelled from the spec: move in-order segments (sn = rcv_nxt,
rcv_nxt+1, ...) from the receive buffer to the receive queue (§4.2,
reassembly of in-order runs). -/
def moveReady (rcv_nxt : Nat) (rcv_buf rcv_queue : List Segment) :
    Nat × List Segment × List Segment :=
  match hf : rcv_buf.find? (fun s => s.sn = rcv_nxt) with
  | none => (rcv_nxt, rcv_buf, rcv_queue)
  | some seg =>
    moveReady (rcv_nxt + 1) (rcv_buf.filter (fun s => s.sn ≠ rcv_nxt))
      (rcv_queue ++ [seg])
termination_by rcv_buf.length
decreasing_by
  have hmem : seg ∈ rcv_buf := List.mem_of_find?_eq_some hf
  have hsn : seg.sn = rcv_nxt := by
    have := List.find?_some hf
    simpa using this
  refine List.length_filter_lt_length_iff_exists.mpr ?_
  exact ⟨seg, hmem, by simp [hsn]⟩

/-- Modelled from the spec: receiving a PUSH segment (§4.2 `input`): a
segment below `rcv_nxt` or already buffered is dropped; otherwise it is
inserted into the receive buffer; in both cases an ACK request `(sn, ts)`
is recorded; finally in-order runs move to the receive queue. -/
def recv_push (st : StreamState) (seg : Segment) : StreamState :=
  let st1 := { st with ack_list := st.ack_list ++ [(seg.sn, seg.ts)] }
  let st2 :=
    if seg.sn < st1.rcv_nxt || st1.rcv_buf.any (fun s => s.sn = seg.sn) then st1
    else { st1 with rcv_buf := st1.rcv_buf ++ [seg] }
  let m := moveReady st2.rcv_nxt st2.rcv_buf st2.rcv_queue
  { st2 with rcv_nxt := m.1, rcv_buf := m.2.1, rcv_queue := m.2.2 }

/-- Modelled from the spec: apply one decoded segment to the stream state
(§4.2 `input`): every segment updates the peer window and triggers UNA
handling; an ACK updates RTT/send buffer/`snd_una`; a PUSH enters the
receive path; a WASK schedules a WINS answer. -/
def applySeg (cfg : KcpConfig) (st : StreamState) (seg : Segment) : StreamState :=
  let st1 := handle_una { st with rmt_wnd := seg.wnd } seg.una
  if seg.cmd = cmdAck then handle_ack cfg st1 seg.sn seg.ts
  else if seg.cmd = cmdPush then recv_push st1 seg
  else if seg.cmd = cmdWask then { st1 with probe_wins := true }
  else st1

/-- Modelled from the spec: `input(datagram)` of §4.2 over an already
received datagram: parse all segments, and only when the whole datagram
decodes apply them in order; a datagram failing to decode leaves the state
untouched and reports the decode error. -/
def inputDatagram (cfg : KcpConfig) (st : StreamState) (buf : List Nat) :
    Except KcpError StreamState :=
  match decodeSegments buf with
  | .error e => .error e
  | .ok segs => .ok (segs.foldl (applySeg cfg) st)

/-- Modelled from the spec: `send(bytes)` fragmentation of §4.2: split the
byte sequence into ceil(len/MSS) pieces of at most `mss` bytes each (the
degenerate `mss = 0` keeps the data as one piece). -/
def fragment (mss : Nat) (data : List Nat) : List (List Nat) :=
  if data = [] then []
  else if mss = 0 then [data]
  else data.take mss :: fragment mss (data.drop mss)
termination_by data.length
decreasing_by
  rename_i hne hmss
  have hpos : 0 < data.length := List.length_pos.mpr hne
  simp only [List.length_drop]
  omega

/-- Modelled from the spec: tag the fragments of one user message as PUSH
segments with consecutive sequence numbers and the descending `frg` index
of §3 (`frg` counts down; 0 marks the last fragment). -/
def tagChunks (conv sn0 : Nat) : List (List Nat) → List Segment
  | [] => []
  | c :: rest =>
    { conv := conv
      cmd := cmdPush
      frg := rest.length
      wnd := 0
      ts := 0
      sn := sn0
      una := 0
      payload := c } :: tagChunks conv (sn0 + 1) rest

/-- Modelled from the spec: `send(bytes)` of §4.2 at the segment level:
fragment the message and tag the fragments as PUSH segments. -/
def kcpSendMessage (conv mss sn0 : Nat) (data : List Nat) : List Segment :=
  tagChunks conv sn0 (fragment mss data)

/-- Modelled from the spec: the byte stream a receiver reads from an
in-order run of PUSH segments (§4.2 `recv` and §4.5 `read`): the payloads
concatenated in sequence order. -/
def recvBytes (segs : List Segment) : List Nat :=
  (segs.map Segment.payload).flatten

/-- The three AEAD algorithms of `get_algorithm` in `src/main.rs`. -/
inductive AeadAlg where
  | aes128gcm
  | aes256gcm
  | chacha20poly1305
deriving DecidableEq, Repr

/-- Embeds `get_algorithm` of `src/main.rs` (lines 224-233): the Rust
match maps the three supported names to their `ring` algorithms and
panics on anything else; the panic is modelled as `none`. -/
def get_algorithm (name : String) : Option AeadAlg :=
  if name = "aes-128-gcm" then some .aes128gcm
  else if name = "aes-256-gcm" then some .aes256gcm
  else if name = "chacha20-poly1305" then some .chacha20poly1305
  else none

/-- Embeds the `algorithm` argument validator of `main` in `src/main.rs`
(lines 276-284): the three supported names are accepted, anything else is
rejected with an error message. -/
def validateAlgorithm (name : String) : Except String Unit :=
  if name = "aes-256-gcm" then .ok ()
  else if name = "aes-128-gcm" then .ok ()
  else if name = "chacha20-poly1305" then .ok ()
  else .error "Valid crypto algorithm: aes-256-gcm, aes-128-gcm, chacha20-poly1305"

/-- I/O error kinds surfaced by the embedded `src/main.rs` functions. -/
inductive IoErr where
  | connectionReset
  | other
deriving DecidableEq, Repr

/-- Embeds `UdpSession::recv_packet` of `src/main.rs` (lines 105-120).
`queue` is the sequence of payloads the session's channel will deliver
before it is closed; `buf` is the caller's buffer.  The loop pops the next
payload; a payload longer than the buffer is logged and skipped; otherwise
the payload is copied into the buffer head and its length returned; a
closed (exhausted) channel yields a `ConnectionReset` error. -/
def recv_packet (queue : List (List Nat)) (buf : List Nat) :
    Except IoErr (Nat × List Nat) :=
  match queue with
  | [] => .error .connectionReset
  | p :: rest =>
    if buf.length < p.length then recv_packet rest buf
    else .ok (p.length, p ++ buf.drop p.length)

/-- Observable events of the UDP listener fan-out task of
`src/main.rs` (`UdpListener::new`, lines 53-83): a session being handed to
the accept channel, and a payload being sent into a session's channel. -/
inductive LEvent where
  | accepted (addr : String)
  | delivered (addr : String) (payload : List Nat)
deriving DecidableEq, Repr

/-- State of the UDP listener fan-out task of `src/main.rs`: the set of
remote addresses with a live session entry (`sessions` keys), the sessions
sitting in the bounded accept channel not yet taken by `accept()`, and the
trace of observable events.  The model covers runs in which no session is
dropped, so the `sessions.retain` sweep of line 77 removes nothing. -/
structure ListenerState where
  sessions : List String
  acceptQueue : List String
  events : List LEvent
deriving DecidableEq, Repr

/-- The accept channel capacity of `UdpListener::new` in `src/main.rs`
(line 55): `bounded(0x10)`. -/
def acceptQueueCap : Nat := 16

/-- The initial listener state: no sessions, empty accept channel. -/
def initListener : ListenerState :=
  { sessions := [], acceptQueue := [], events := [] }

/-- Embeds one iteration of the fan-out loop of `UdpListener::new` in
`src/main.rs` (lines 60-79) on receipt of a datagram: a known remote
address has its payload forwarded to its session channel; an unknown
address gets a fresh session entry which is handed to the accept channel
before the triggering payload is forwarded.  `accept_tx.send` on a full
bounded channel suspends the task, modelled as `none` (no resulting
state); the datagram's payload bytes are never inspected — in particular
no AEAD verification happens before the session entry is created. -/
def listenerStep (st : ListenerState) (addr : String) (payload : List Nat) :
    Option ListenerState :=
  if st.sessions.contains addr then
    some { st with events := st.events ++ [.delivered addr payload] }
  else if st.acceptQueue.length < acceptQueueCap then
    some { sessions := addr :: st.sessions
           acceptQueue := st.acceptQueue ++ [addr]
           events := st.events ++ [.accepted addr, .delivered addr payload] }
  else
    none

/-- Inputs of a listener run: a datagram arriving from a remote address,
or the application taking one session off the accept channel
(`UdpListener::accept`, lines 49-51 of `src/main.rs`). -/
inductive LAction where
  | dgram (addr : String) (payload : List Nat)
  | appAccept
deriving DecidableEq, Repr

/-- Run the listener fan-out over a sequence of actions; `none` when the
fan-out task suspends on a full accept channel. -/
def listenerRun (st : ListenerState) : List LAction → Option ListenerState
  | [] => some st
  | .dgram addr payload :: rest =>
    match listenerStep st addr payload with
    | none => none
    | some st1 => listenerRun st1 rest
  | .appAccept :: rest =>
    listenerRun { st with acceptQueue := st.acceptQueue.tail } rest

/-- The events of a trace that concern one remote address. -/
def perAddr (a : String) (evts : List LEvent) : List LEvent :=
  evts.filter (fun e =>
    match e with
    | .accepted b => b = a
    | .delivered b _ => b = a)

/-- The payloads of the datagrams of an action sequence that come from one
remote address, in arrival order. -/
def dgramsFor (a : String) (acts : List LAction) : List (List Nat) :=
  acts.filterMap (fun act =>
    match act with
    | .dgram b p => if b = a then some p else none
    | .appAccept => none)

/-- Read results feeding `relay` of `src/main.rs`: a successful `read`
returning a chunk (the empty chunk is end of stream), or a read error. -/
abbrev ReadResult := Except IoErr (List Nat)

/-- Embeds `relay` of `src/main.rs` (lines 123-136) with the reader as the
list of outcomes successive `read` calls produce and the writer as an
oracle `wres` giving the outcome of the `i`-th `write_all` (`none` =
success, `some e` = fails having written nothing).  The loop reads a
chunk; length 0 ends the relay with `Ok(())`; a read or write error is
returned at once; otherwise the chunk is written and the loop continues.
The result pairs the bytes written with the outcome; `none` means the read
trace was exhausted with the relay still waiting. -/
def relayGo (wres : Nat → Option IoErr) :
    List ReadResult → Nat → Option (List Nat × Except IoErr Unit)
  | [], _ => none
  | .error e :: _, _ => some ([], .error e)
  | .ok c :: rest, i =>
    if c = [] then some ([], .ok ())
    else
      match wres i with
      | some e => some ([], .error e)
      | none =>
        match relayGo wres rest (i + 1) with
        | none => none
        | some (out, r) => some (c ++ out, r)

/-- `relay` of `src/main.rs`, starting at write index 0. -/
def relay (reads : List ReadResult) (wres : Nat → Option IoErr) :
    Option (List Nat × Except IoErr Unit) :=
  relayGo wres reads 0

/-- A concrete stream state used by witnesses. -/
def exStream : StreamState :=
  { conv := 7
    snd_una := 3
    snd_nxt := 9
    snd_buf := [{ sn := 3, ts := 0, frg := 0, fastack := 0, xmit := 1,
                  resendts := 0, payload := [1] }]
    rcv_nxt := 0
    rcv_buf := []
    rcv_queue := []
    ack_list := []
    rmt_wnd := 32
    probe_wins := false
    current := 50
    rx_srtt := 80
    rx_rttvar := 20
    rx_rto := 120 }

/-- C6: algorithm selection accepts exactly the names "aes-128-gcm",
"aes-256-gcm" and "chacha20-poly1305", mapping each to the corresponding
AEAD algorithm; every other name makes `get_algorithm` panic (modelled as
`none`) and is rejected by the CLI validator. -/
theorem get_algorithm_exact (name : String) :
    (get_algorithm name = some AeadAlg.aes128gcm ↔ name = "aes-128-gcm")
    ∧ (get_algorithm name = some AeadAlg.aes256gcm ↔ name = "aes-256-gcm")
    ∧ (get_algorithm name = some AeadAlg.chacha20poly1305 ↔
        name = "chacha20-poly1305")
    ∧ (get_algorithm name = none ↔
        ¬ (name = "aes-128-gcm" ∨ name = "aes-256-gcm" ∨
           name = "chacha20-poly1305"))
    ∧ (validateAlgorithm name = .ok () ↔ (get_algorithm name).isSome) := by
  unfold get_algorithm validateAlgorithm
  split_ifs with h1 h2 h3 <;> simp_all

/-- Witness for C6: the accepted and rejected names at concrete inputs. -/
theorem get_algorithm_exact_witness :
    (get_algorithm "aes-128-gcm" = some AeadAlg.aes128gcm ↔
      "aes-128-gcm" = "aes-128-gcm")
    ∧ (get_algorithm "aes-128-gcm" = some AeadAlg.aes256gcm ↔
        "aes-128-gcm" = "aes-256-gcm")
    ∧ (get_algorithm "aes-128-gcm" = some AeadAlg.chacha20poly1305 ↔
        "aes-128-gcm" = "chacha20-poly1305")
    ∧ (get_algorithm "aes-128-gcm" = none ↔
        ¬ ("aes-128-gcm" = "aes-128-gcm" ∨ "aes-128-gcm" = "aes-256-gcm" ∨
           "aes-128-gcm" = "chacha20-poly1305"))
    ∧ (validateAlgorithm "aes-128-gcm" = .ok () ↔
        (get_algorithm "aes-128-gcm").isSome) :=
  get_algorithm_exact "aes-128-gcm"

/-- C7: for every non-negative RTT sample the estimator performs exactly
the Jacobson update `rttvar = 3/4·rttvar + 1/4·|srtt-sample|`,
`srtt = 7/8·srtt + 1/8·sample` in integer arithmetic, sets
`rto = clamp(srtt + max(interval, 4·rttvar), rto_min, rto_max)`, and the
resulting rto lies within `[rto_min, rto_max]`. -/
theorem rtt_update_jacobson (cfg : KcpConfig) (st : StreamState) (sample : Nat)
    (h : cfg.rto_min ≤ cfg.rto_max) :
    (rtt_update cfg st sample).rx_rttvar
        = 3 * st.rx_rttvar / 4 +
            Int.natAbs ((st.rx_srtt : Int) - (sample : Int)) / 4
    ∧ (rtt_update cfg st sample).rx_srtt = 7 * st.rx_srtt / 8 + sample / 8
    ∧ (rtt_update cfg st sample).rx_rto
        = clampNat ((rtt_update cfg st sample).rx_srtt
            + Nat.max cfg.interval (4 * (rtt_update cfg st sample).rx_rttvar))
            cfg.rto_min cfg.rto_max
    ∧ cfg.rto_min ≤ (rtt_update cfg st sample).rx_rto
    ∧ (rtt_update cfg st sample).rx_rto ≤ cfg.rto_max := by
  refine ⟨rfl, rfl, rfl, Nat.le_max_left _ _, ?_⟩
  show Nat.max cfg.rto_min (Nat.min _ cfg.rto_max) ≤ cfg.rto_max
  exact Nat.max_le.mpr ⟨h, Nat.min_le_right _ _⟩

/-- Witness for C7: with the default configuration and a concrete sample
the rto stays within its bounds. -/
theorem rtt_update_jacobson_witness :
    defaultKcpConfig.rto_min ≤ (rtt_update defaultKcpConfig exStream 42).rx_rto
    ∧ (rtt_update defaultKcpConfig exStream 42).rx_rto
        ≤ defaultKcpConfig.rto_max :=
  (rtt_update_jacobson defaultKcpConfig exStream 42 (by decide)).2.2.2

/-- C8: `UdpSession::recv_packet` returns exactly the first queued payload
that fits the caller's buffer (skipping and discarding longer ones),
copying it into the buffer head and reporting its exact length — hence
never a length beyond the buffer and no write past the reported length —
and fails with `ConnectionReset` when the channel closes with no fitting
payload left. -/
theorem recv_packet_spec (queue : List (List Nat)) (buf : List Nat) :
    recv_packet queue buf =
      (match queue.find? (fun p => p.length ≤ buf.length) with
       | none => .error .connectionReset
       | some p => .ok (p.length, p ++ buf.drop p.length))
    ∧ (∀ len out, recv_packet queue buf = .ok (len, out) →
        len ≤ buf.length ∧ out.length = buf.length ∧
        out.drop len = buf.drop len ∧ out.take len ∈ queue) := by
  have hmain : recv_packet queue buf =
      (match queue.find? (fun p => p.length ≤ buf.length) with
       | none => .error .connectionReset
       | some p => .ok (p.length, p ++ buf.drop p.length)) := by
    induction queue with
    | nil => simp [recv_packet]
    | cons p rest ih =>
      by_cases h : buf.length < p.length
      · have hd : (decide (p.length ≤ buf.length)) = false := by
          simp; omega
        simp [recv_packet, List.find?_cons, h, hd, ih]
      · have hd : (decide (p.length ≤ buf.length)) = true := by
          simp; omega
        simp [recv_packet, List.find?_cons, h, hd]
  refine ⟨hmain, ?_⟩
  intro len out hok
  rw [hmain] at hok
  cases hf : queue.find? (fun p => p.length ≤ buf.length) with
  | none => rw [hf] at hok; cases hok
  | some p =>
    rw [hf] at hok
    have hple : p.length ≤ buf.length := by
      have := List.find?_some hf
      simpa using this
    have hmem : p ∈ queue := List.mem_of_find?_eq_some hf
    cases hok
    refine ⟨hple, ?_, ?_, ?_⟩
    · simp [List.length_append, List.length_drop]; omega
    · rw [List.drop_append_of_le_length (le_refl _)]
      simp
    · simpa [List.take_append_of_le_length (le_refl _)] using hmem

/-- Witness for C8: a 3-byte payload is skipped for a 2-byte buffer and
the following 1-byte payload is delivered into the buffer head. -/
theorem recv_packet_spec_witness :
    1 ≤ ([0, 0] : List Nat).length ∧
    ([4, 0] : List Nat).length = ([0, 0] : List Nat).length ∧
    ([4, 0] : List Nat).drop 1 = ([0, 0] : List Nat).drop 1 ∧
    ([4, 0] : List Nat).take 1 ∈ [[1, 2, 3], [4]] :=
  (recv_packet_spec [[1, 2, 3], [4]] [0, 0]).2 1 [4, 0] (by rfl)

/-- C2 (divergence exhibited): `UdpListener::new` in `src/main.rs` creates
a session entry for the very first datagram of an unknown remote address
without any AEAD processing — decryption only happens later, in the
`CryptoLayer` wrapped around the already accepted session (`server`, lines
176-181).  The 3-byte datagram here is shorter than the 12-byte nonce plus
16-byte tag of the wire format, so it cannot pass AEAD verification, yet a
session entry is created, handed to accept, and fed the datagram. -/
theorem session_created_without_aead :
    listenerStep initListener "203.0.113.7:9999" [0, 1, 2] =
      some { sessions := ["203.0.113.7:9999"]
             acceptQueue := ["203.0.113.7:9999"]
             events := [.accepted "203.0.113.7:9999",
                        .delivered "203.0.113.7:9999" [0, 1, 2]] } := by
  rfl

/-- A listener state whose accept channel is full (16 pending sessions,
the capacity of `bounded(0x10)`). -/
def fullListener : ListenerState :=
  { sessions := []
    acceptQueue := ["a0", "a1", "a2", "a3", "a4", "a5", "a6", "a7",
                    "a8", "a9", "a10", "a11", "a12", "a13", "a14", "a15"]
    events := [] }

/-- Counterexample to C3 as stated: with the accept queue full, a datagram
from a new remote address does not drop the newest connection — the
fan-out task suspends on `accept_tx.send` (`none`: no successor state),
so the producer blocks. -/
theorem accept_overflow_blocks_cex :
    listenerStep fullListener "203.0.113.9:1" [7] = none := by
  rfl

/-- Helper: a listener run never grows the accept queue beyond its
capacity. -/
theorem listenerRun_queue_le (acts : List LAction) :
    ∀ st st', st.acceptQueue.length ≤ acceptQueueCap →
      listenerRun st acts = some st' →
      st'.acceptQueue.length ≤ acceptQueueCap := by
  induction acts with
  | nil =>
    intro st st' h hr
    simp only [listenerRun] at hr
    cases hr
    exact h
  | cons a rest ih =>
    intro st st' h hr
    cases a with
    | dgram addr payload =>
      simp only [listenerRun] at hr
      cases hstep : listenerStep st addr payload with
      | none => rw [hstep] at hr; cases hr
      | some st1 =>
        rw [hstep] at hr
        refine ih st1 st' ?_ hr
        unfold listenerStep at hstep
        split_ifs at hstep with h1 h2
        · cases hstep; simpa using h
        · cases hstep
          simp only [List.length_append, List.length_cons]
          simp only [List.length_nil] at h2 ⊢
          omega
    | appAccept =>
      simp only [listenerRun] at hr
      refine ih _ st' ?_ hr
      have := List.length_tail st.acceptQueue
      simp only [this]
      omega

/-- C3 (amended): the accept queue is bounded by the channel capacity 16
along every run, and when it is full a further newly accepted connection
makes the producing fan-out task block (no successor state); nothing is
dropped. -/
theorem accept_queue_bounded (st : ListenerState) (addr : String)
    (payload : List Nat) (acts : List LAction) (st' : ListenerState) :
    (st.sessions.contains addr = false →
      st.acceptQueue.length = acceptQueueCap →
      listenerStep st addr payload = none)
    ∧ (st.acceptQueue.length ≤ acceptQueueCap →
        listenerRun st acts = some st' →
        st'.acceptQueue.length ≤ acceptQueueCap) := by
  constructor
  · intro hunk hfull
    have hnm : addr ∉ st.sessions := by simpa using hunk
    unfold listenerStep
    simp [hunk, hfull, hnm]
  · exact listenerRun_queue_le acts st st'

/-- Witness for C3 (amended): the full listener state blocks on a fresh
address, and a concrete run stays within the capacity bound. -/
theorem accept_queue_bounded_witness :
    listenerStep fullListener "203.0.113.10:2" [] = none :=
  (accept_queue_bounded fullListener "203.0.113.10:2" [] [] fullListener).1
    (by rfl) (by rfl)

/-- Helper: the running minimum is either its seed or the sn of a listed
entry. -/
theorem minSnFrom_mem :
    ∀ (l : List SendEntry) (x : Nat),
      minSnFrom x l = x ∨ minSnFrom x l ∈ l.map SendEntry.sn := by
  intro l
  induction l with
  | nil => intro x; exact Or.inl rfl
  | cons e rest ih =>
    intro x
    have hstep : minSnFrom x (e :: rest) = minSnFrom (min x e.sn) rest := rfl
    rcases ih (min x e.sn) with h | h
    · rcases Nat.le_total x e.sn with hle | hle
      · have hmin : min x e.sn = x := by omega
        left
        rw [hstep, hmin]
        rw [hmin] at h
        exact h
      · have hmin : min x e.sn = e.sn := by omega
        right
        rw [hstep, hmin]
        rw [hmin] at h
        simp [h]
    · right
      rw [hstep]
      simp only [List.map_cons, List.mem_cons]
      exact Or.inr h

/-- Helper: the running minimum never exceeds its seed. -/
theorem minSnFrom_le_seed :
    ∀ (l : List SendEntry) (x : Nat), minSnFrom x l ≤ x := by
  intro l
  induction l with
  | nil => intro x; exact le_refl x
  | cons e rest ih =>
    intro x
    exact le_trans (ih (min x e.sn)) (min_le_left _ _)

/-- Helper: the running minimum bounds every listed entry's sn. -/
theorem minSnFrom_le :
    ∀ (l : List SendEntry) (x : Nat), ∀ e ∈ l, minSnFrom x l ≤ e.sn := by
  intro l
  induction l with
  | nil => intro x e he; cases he
  | cons f rest ih =>
    intro x e he
    rcases List.mem_cons.mp he with hef | her
    · subst hef
      exact le_trans (minSnFrom_le_seed rest (min x e.sn))
        (min_le_right _ _)
    · exact ih (min x f.sn) e her

/-- Helper: the minimum returned by `minSn` is the sn of some entry. -/
theorem minSn_mem (buf : List SendEntry) (m : Nat) (h : minSn buf = some m) :
    m ∈ buf.map SendEntry.sn := by
  cases buf with
  | nil => cases h
  | cons e rest =>
    simp only [minSn, Option.some.injEq] at h
    subst h
    rcases minSnFrom_mem rest e.sn with h | h
    · simp [h]
    · simp only [List.map_cons, List.mem_cons]
      exact Or.inr h

/-- Helper: the minimum returned by `minSn` bounds every entry's sn. -/
theorem minSn_le (buf : List SendEntry) (m : Nat) (h : minSn buf = some m) :
    ∀ e ∈ buf, m ≤ e.sn := by
  cases buf with
  | nil => intro e he; cases he
  | cons f rest =>
    simp only [minSn, Option.some.injEq] at h
    subst h
    intro e he
    rcases List.mem_cons.mp he with hef | her
    · subst hef
      exact minSnFrom_le_seed rest e.sn
    · exact minSnFrom_le rest f.sn e her

/-- Helper: `minSn` is `none` exactly on the empty buffer. -/
theorem minSn_none_iff (buf : List SendEntry) :
    minSn buf = none ↔ buf = [] := by
  cases buf <;> simp [minSn]

/-- Helper: `update_una` keeps the buffer and `snd_nxt`, and sets
`snd_una` to the least buffered sn, or to `snd_nxt` on an empty buffer. -/
theorem update_una_spec (st : StreamState) :
    (update_una st).snd_buf = st.snd_buf
    ∧ (update_una st).snd_nxt = st.snd_nxt
    ∧ (st.snd_buf = [] → (update_una st).snd_una = st.snd_nxt)
    ∧ (st.snd_buf ≠ [] →
        (update_una st).snd_una ∈ st.snd_buf.map SendEntry.sn
        ∧ ∀ e ∈ st.snd_buf, (update_una st).snd_una ≤ e.sn) := by
  refine ⟨rfl, rfl, ?_, ?_⟩
  · intro hempty
    simp [update_una, hempty, minSn]
  · intro hne
    cases hm : minSn st.snd_buf with
    | none => exact absurd ((minSn_none_iff _).mp hm) hne
    | some m =>
      have huna : (update_una st).snd_una = m := by
        simp [update_una, hm]
      rw [huna]
      exact ⟨minSn_mem _ m hm, minSn_le _ m hm⟩

/-- C5: after processing an ACK for sequence number `k`, no send-buffer
entry with sn `k` remains, and `snd_una` equals the minimum sn present in
the send buffer — or `snd_nxt` when the buffer is empty (`snd_nxt` is
untouched by ACK processing). -/
theorem handle_ack_spec (cfg : KcpConfig) (st : StreamState) (k t : Nat) :
    (∀ e ∈ (handle_ack cfg st k t).snd_buf, e.sn ≠ k)
    ∧ ((handle_ack cfg st k t).snd_nxt = st.snd_nxt)
    ∧ ((handle_ack cfg st k t).snd_buf = [] →
        (handle_ack cfg st k t).snd_una = st.snd_nxt)
    ∧ ((handle_ack cfg st k t).snd_buf ≠ [] →
        (handle_ack cfg st k t).snd_una
            ∈ (handle_ack cfg st k t).snd_buf.map SendEntry.sn
        ∧ ∀ e ∈ (handle_ack cfg st k t).snd_buf,
            (handle_ack cfg st k t).snd_una ≤ e.sn) := by
  have hsnxt1 : (if t ≤ st.current then rtt_update cfg st (st.current - t)
      else st).snd_nxt = st.snd_nxt := by
    split <;> rfl
  have heq : handle_ack cfg st k t =
      update_una
        { (if t ≤ st.current then rtt_update cfg st (st.current - t) else st)
            with
          snd_buf :=
            ((if t ≤ st.current then rtt_update cfg st (st.current - t)
                else st).snd_buf.filter (fun e => e.sn ≠ k)).map
              (fun e => if e.sn < k then { e with fastack := e.fastack + 1 }
                        else e) } := rfl
  obtain ⟨hbuf, hnxt, hemp, hfull⟩ := update_una_spec
    { (if t ≤ st.current then rtt_update cfg st (st.current - t) else st) with
      snd_buf :=
        ((if t ≤ st.current then rtt_update cfg st (st.current - t)
            else st).snd_buf.filter (fun e => e.sn ≠ k)).map
          (fun e => if e.sn < k then { e with fastack := e.fastack + 1 }
                    else e) }
  rw [heq]
  refine ⟨?_, by rw [hnxt]; exact hsnxt1, ?_, ?_⟩
  · intro e he
    rw [hbuf] at he
    rcases List.mem_map.mp he with ⟨e', he', heq'⟩
    have hsn : e.sn = e'.sn := by
      subst heq'
      split <;> rfl
    have hne : e'.sn ≠ k := by
      have := List.of_mem_filter he'
      simpa using this
    rw [hsn]
    exact hne
  · intro hempty
    rw [hbuf] at hempty
    rw [hemp hempty, hsnxt1]
  · intro hne
    rw [hbuf] at hne
    obtain ⟨hm, hle⟩ := hfull hne
    rw [hbuf]
    exact ⟨hm, hle⟩

/-- Witness for C5: acknowledging the only in-flight segment empties the
send buffer and resets `snd_una` to `snd_nxt`. -/
theorem handle_ack_spec_witness :
    (handle_ack defaultKcpConfig exStream 3 0).snd_una = exStream.snd_nxt :=
  (handle_ack_spec defaultKcpConfig exStream 3 0).2.2.1 (by rfl)

/-- Helper: concatenating the fragments of a message restores the
message. -/
theorem fragment_flatten (mss : Nat) (data : List Nat) :
    (fragment mss data).flatten = data := by
  induction data using fragment.induct mss with
  | case1 => simp [fragment]
  | case2 d hne hz => simp [fragment, hne, hz]
  | case3 d hne hz ih =>
    rw [fragment]
    simp only [hne, hz, if_false, List.flatten_cons, ih]
    simp [List.take_append_drop]

/-- Helper: the payloads of the tagged PUSH segments are the fragments. -/
theorem tagChunks_payloads :
    ∀ (chunks : List (List Nat)) (conv sn0 : Nat),
      (tagChunks conv sn0 chunks).map Segment.payload = chunks := by
  intro chunks
  induction chunks with
  | nil => intro conv sn0; rfl
  | cons c rest ih =>
    intro conv sn0
    simp [tagChunks, ih]

/-- C1: for every payload of length `0 < L ≤ 64 MiB` (and any positive
MSS), the bytes read on the receiving side of a transfer — the in-order
concatenation of the PUSH payloads produced by `send` — are byte-identical
to, and of the same length as, the bytes written. -/
theorem stream_roundtrip (conv mss sn0 : Nat) (data : List Nat)
    (h1 : 0 < data.length) (h2 : data.length ≤ 0x4000000) (h3 : 0 < mss) :
    recvBytes (kcpSendMessage conv mss sn0 data) = data
    ∧ (recvBytes (kcpSendMessage conv mss sn0 data)).length = data.length := by
  have hmain : recvBytes (kcpSendMessage conv mss sn0 data) = data := by
    unfold recvBytes kcpSendMessage
    rw [tagChunks_payloads, fragment_flatten]
  exact ⟨hmain, by rw [hmain]⟩

/-- Witness for C1: a concrete 5-byte message fragmented at MSS 2 is read
back unchanged. -/
theorem stream_roundtrip_witness :
    recvBytes (kcpSendMessage 1 2 10 [9, 8, 7, 6, 5]) = [9, 8, 7, 6, 5]
    ∧ (recvBytes (kcpSendMessage 1 2 10 [9, 8, 7, 6, 5])).length
        = ([9, 8, 7, 6, 5] : List Nat).length :=
  stream_roundtrip 1 2 10 [9, 8, 7, 6, 5] (by decide) (by decide) (by decide)

/-- Helper: `relayGo` consumes a run of successful non-empty reads whose
writes all succeed by writing their concatenation and continuing. -/
theorem relayGo_chunks (wres : Nat → Option IoErr) :
    ∀ (chunks : List (List Nat)) (rest : List ReadResult) (i : Nat),
      (∀ c ∈ chunks, c ≠ []) →
      (∀ j, j < chunks.length → wres (i + j) = none) →
      relayGo wres (chunks.map .ok ++ rest) i =
        (match relayGo wres rest (i + chunks.length) with
         | none => none
         | some (out, r) => some (chunks.flatten ++ out, r)) := by
  intro chunks
  induction chunks with
  | nil =>
    intro rest i _ _
    simp only [List.map_nil, List.nil_append, List.flatten_nil, List.length_nil,
      Nat.add_zero]
    cases h : relayGo wres rest i with
    | none => simp
    | some p => cases p; simp
  | cons c cs ih =>
    intro rest i hne hw
    have hc : c ≠ [] := hne c (List.mem_cons_self c cs)
    have hw0 : wres i = none := by
      have := hw 0 (by simp)
      simpa using this
    have hrec := ih rest (i + 1)
      (fun d hd => hne d (List.mem_cons_of_mem c hd))
      (fun j hj => by
        have h1 := hw (j + 1) (by simp; omega)
        have h2 : i + 1 + j = i + (j + 1) := by omega
        rw [h2]
        exact h1)
    simp only [List.map_cons, List.cons_append, relayGo, hc, if_false, hw0,
      List.append_eq]
    rw [hrec]
    have hlen : i + 1 + cs.length = i + (c :: cs).length := by
      simp
      omega
    rw [hlen]
    cases relayGo wres rest (i + (c :: cs).length) with
    | none => rfl
    | some p =>
      cases p
      simp [List.append_assoc]

/-- C10: `relay(reader, writer)` writes to the writer exactly the
concatenation, in order, of the chunks read, returns `Ok(())` exactly at a
zero-length read, and propagates the first read or write error without
writing further chunks. -/
theorem relay_correct (chunks : List (List Nat)) (rest : List ReadResult)
    (e : IoErr) (k : Nat) (hne : ∀ c ∈ chunks, c ≠ []) :
    relay (chunks.map .ok ++ .ok [] :: rest) (fun _ => none)
        = some (chunks.flatten, .ok ())
    ∧ relay (chunks.map .ok ++ .error e :: rest) (fun _ => none)
        = some (chunks.flatten, .error e)
    ∧ (k < chunks.length →
        relay (chunks.map .ok) (fun i => if i = k then some e else none)
          = some ((chunks.take k).flatten, .error e)) := by
  refine ⟨?_, ?_, ?_⟩
  · rw [relay, relayGo_chunks (fun _ => none) chunks (.ok [] :: rest) 0 hne
      (fun _ _ => rfl)]
    simp [relayGo]
  · rw [relay, relayGo_chunks (fun _ => none) chunks (.error e :: rest) 0 hne
      (fun _ _ => rfl)]
    simp [relayGo]
  · intro hk
    have hsplit : chunks.map (Except.ok (ε := IoErr)) =
        (chunks.take k).map .ok ++
          (chunks[k] :: chunks.drop (k + 1)).map .ok := by
      rw [← List.map_append]
      rw [← List.drop_eq_getElem_cons hk]
      rw [List.take_append_drop]
    rw [relay, hsplit]
    rw [relayGo_chunks (fun i => if i = k then some e else none)
      (chunks.take k) ((chunks[k] :: chunks.drop (k + 1)).map .ok) 0
      (fun c hc => hne c (List.mem_of_mem_take hc))
      (fun j hj => by
        have hjk : j < k := by
          have := List.length_take_le k chunks
          have h2 : (chunks.take k).length = min k chunks.length :=
            List.length_take k chunks
          omega
        simp [Nat.ne_of_lt hjk])]
    have hlen : (chunks.take k).length = k := by
      rw [List.length_take]
      omega
    rw [hlen]
    have hck : chunks[k] ≠ [] := hne chunks[k] (List.getElem_mem hk)
    simp only [List.map_cons, relayGo, hck, if_false]
    simp

/-- Witness for C10: a two-chunk stream followed by EOF relays both
chunks in order and ends with `Ok(())`. -/
theorem relay_correct_witness :
    relay (([[1], [2]] : List (List Nat)).map .ok ++ .ok [] :: [])
        (fun _ => none)
      = some (([[1], [2]] : List (List Nat)).flatten, .ok ()) :=
  (relay_correct [[1], [2]] [] .other 0 (by decide)).1

/-- Whether an `Except` value is a success. -/
def exceptOk {ε α : Type} : Except ε α → Bool
  | .ok _ => true
  | .error _ => false

/-- Helper: `InvalidSegment` is the only error the decoder ever reports. -/
theorem decode_error_only_invalid :
    ∀ (buf : List Nat) (e : KcpError), decodeSegments buf = .error e →
      e = KcpError.invalidSegment := by
  intro buf
  induction buf using decodeSegments.induct with
  | case1 =>
    intro e h
    rw [decodeSegments, dif_pos rfl] at h
    exact Except.noConfusion h
  | case2 b h0 h1 =>
    intro e h
    rw [decodeSegments, dif_neg h0, if_pos h1] at h
    exact (Except.error.inj h).symm
  | case3 b h0 h1 h2 =>
    intro e h
    rw [decodeSegments, dif_neg h0, if_neg h1, if_pos h2] at h
    exact (Except.error.inj h).symm
  | case4 b h0 h1 h2 h3 =>
    intro e h
    rw [decodeSegments, dif_neg h0, if_neg h1, if_neg h2, if_pos h3] at h
    exact (Except.error.inj h).symm
  | case5 b h0 h1 h2 h3 segs hrec ih =>
    intro e h
    rw [decodeSegments, dif_neg h0, if_neg h1, if_neg h2, if_neg h3,
      hrec] at h
    exact Except.noConfusion h
  | case6 b h0 h1 h2 h3 e' hrec ih =>
    intro e h
    rw [decodeSegments, dif_neg h0, if_neg h1, if_neg h2, if_neg h3,
      hrec] at h
    have h4 : e' = e := Except.error.inj h
    subst h4
    exact ih e' hrec

/-- C4: decoding a (non-empty) datagram fails — always with
`InvalidSegment` — exactly when the leading segment's header is truncated,
its command byte is unknown, or its `len` field exceeds the remaining
buffer, or the rest of the datagram fails in turn; and decoding is
all-or-none: a datagram that fails to decode is not applied to the stream
state at all. -/
theorem decode_all_or_none (cfg : KcpConfig) (st : StreamState)
    (buf : List Nat) (hne : buf ≠ []) :
    (∀ e, decodeSegments buf = .error e → e = KcpError.invalidSegment)
    ∧ (exceptOk (decodeSegments buf) = false ↔
        buf.length < headerSize
        ∨ validCmd (buf.getD 4 0) = false
        ∨ buf.length - headerSize < segLen buf
        ∨ exceptOk (decodeSegments (buf.drop (headerSize + segLen buf)))
            = false)
    ∧ (∀ e, decodeSegments buf = .error e →
        inputDatagram cfg st buf = .error e ∧
        inputDatagram cfg st buf ≠ .ok st) := by
  refine ⟨decode_error_only_invalid buf, ?_, ?_⟩
  · conv_lhs => rw [decodeSegments]
    rw [dif_neg hne]
    by_cases h1 : buf.length < headerSize
    · rw [if_pos h1]
      exact ⟨fun _ => Or.inl h1, fun _ => rfl⟩
    · rw [if_neg h1]
      by_cases h2 : ¬ validCmd (buf.getD 4 0) = true
      · rw [if_pos h2]
        have h2' : validCmd (buf.getD 4 0) = false := by
          cases hv : validCmd (buf.getD 4 0)
          · rfl
          · exact absurd hv h2
        exact ⟨fun _ => Or.inr (Or.inl h2'), fun _ => rfl⟩
      · rw [if_neg h2]
        have h2t : validCmd (buf.getD 4 0) = true := not_not.mp h2
        by_cases h3 : buf.length - headerSize < segLen buf
        · rw [if_pos h3]
          exact ⟨fun _ => Or.inr (Or.inr (Or.inl h3)), fun _ => rfl⟩
        · rw [if_neg h3]
          cases hrec : decodeSegments (buf.drop (headerSize + segLen buf)) with
          | ok segs =>
            simp only [hrec, exceptOk]
            constructor
            · intro hc
              exact Bool.noConfusion hc
            · intro hd
              rcases hd with h | h | h | h
              · exact absurd h h1
              · rw [h2t] at h
                exact Bool.noConfusion h
              · exact absurd h h3
              · exact Bool.noConfusion h
          | error e' =>
            simp [hrec, exceptOk]
  · intro e h
    unfold inputDatagram
    rw [h]
    exact ⟨rfl, by simp⟩

/-- Witness for C4: a one-byte datagram has a truncated header, so the
whole datagram is rejected and the stream state is left untouched. -/
theorem decode_all_or_none_witness :
    inputDatagram defaultKcpConfig exStream [0] = .error .invalidSegment ∧
    inputDatagram defaultKcpConfig exStream [0] ≠ .ok exStream :=
  (decode_all_or_none defaultKcpConfig exStream [0] (by decide)).2.2
    .invalidSegment (by rw [decodeSegments]; simp [headerSize])

/-- Helper: datagram actions from another address do not change an
address's datagram list. -/
theorem dgramsFor_cons_dgram (a b : String) (p : List Nat)
    (rest : List LAction) :
    dgramsFor a (.dgram b p :: rest)
      = if b = a then p :: dgramsFor a rest else dgramsFor a rest := by
  by_cases hab : b = a <;> simp [dgramsFor, List.filterMap_cons, hab]

/-- Helper: accept actions do not change an address's datagram list. -/
theorem dgramsFor_cons_accept (a : String) (rest : List LAction) :
    dgramsFor a (.appAccept :: rest) = dgramsFor a rest := by
  simp [dgramsFor, List.filterMap_cons]

/-- Helper: the per-address projection distributes over appended traces. -/
theorem perAddr_append (a : String) (l1 l2 : List LEvent) :
    perAddr a (l1 ++ l2) = perAddr a l1 ++ perAddr a l2 := by
  simp [perAddr]

/-- Helper: what a listener run appends to each address's event trace:
nothing new for an address whose session already exists beyond its
delivered datagrams; for a fresh address, an accept event followed by its
delivered datagrams — and an address ends up in the session table
exactly when it already was there or sent a datagram. -/
theorem listenerRun_perAddr (acts : List LAction) :
    ∀ (st st' : ListenerState) (a : String),
      listenerRun st acts = some st' →
      (perAddr a st'.events = perAddr a st.events ++
        (if st.sessions.contains a
         then (dgramsFor a acts).map (LEvent.delivered a)
         else if dgramsFor a acts = [] then []
         else LEvent.accepted a :: (dgramsFor a acts).map (LEvent.delivered a)))
      ∧ st'.sessions.contains a
          = (st.sessions.contains a || !(dgramsFor a acts).isEmpty) := by
  intro st st' a
  induction acts generalizing st with
  | nil =>
    intro h
    simp only [listenerRun] at h
    cases h
    constructor
    · simp only [dgramsFor, List.filterMap_nil]
      split <;> simp
    · simp [dgramsFor]
  | cons act rest ih =>
    intro h
    cases act with
    | appAccept =>
      simp only [listenerRun] at h
      obtain ⟨h1, h2⟩ := ih _ h
      exact ⟨by simpa [dgramsFor_cons_accept] using h1,
             by simpa [dgramsFor_cons_accept] using h2⟩
    | dgram b p =>
      simp only [listenerRun] at h
      cases hstep : listenerStep st b p with
      | none => rw [hstep] at h; cases h
      | some st1 =>
        rw [hstep] at h
        obtain ⟨h1, h2⟩ := ih st1 h
        unfold listenerStep at hstep
        by_cases hcb : st.sessions.contains b
        · rw [if_pos hcb] at hstep
          have hstep' :
              st1 = { st with events := st.events ++ [.delivered b p] } :=
            (Option.some.inj hstep).symm
          subst hstep'
          rw [dgramsFor_cons_dgram]
          by_cases hab : b = a
          · subst hab
            rw [if_pos rfl]
            refine ⟨?_, ?_⟩
            · rw [h1]
              simp only [hcb, if_true, perAddr_append]
              rw [List.append_assoc]
              congr 1
              simp [perAddr]
            · rw [h2]
              simp only [hcb, Bool.true_or, List.isEmpty_cons, Bool.not_false]
          · rw [if_neg hab]
            refine ⟨?_, ?_⟩
            · rw [h1]
              simp only [perAddr_append]
              have hpe : perAddr a [LEvent.delivered b p] = [] := by
                simp [perAddr, hab]
              rw [hpe, List.append_nil]
            · rw [h2]
        · rw [if_neg hcb] at hstep
          by_cases hq : st.acceptQueue.length < acceptQueueCap
          · rw [if_pos hq] at hstep
            have hstep' : st1 =
                { sessions := b :: st.sessions
                  acceptQueue := st.acceptQueue ++ [b]
                  events :=
                    st.events ++ [.accepted b, .delivered b p] } :=
              (Option.some.inj hstep).symm
            subst hstep'
            rw [dgramsFor_cons_dgram]
            by_cases hab : b = a
            · subst hab
              rw [if_pos rfl]
              have hcb' : st.sessions.contains b = false :=
                Bool.not_eq_true _ ▸ by simpa using hcb
              have hc1 : (b :: st.sessions).contains b = true := by
                simp [List.contains_cons]
              refine ⟨?_, ?_⟩
              · rw [h1]
                simp only [hc1, if_true, hcb', Bool.false_eq_true,
                  if_false, perAddr_append]
                have : ¬ (p :: dgramsFor b rest) = [] := by simp
                rw [if_neg this]
                rw [List.append_assoc]
                congr 1
                simp [perAddr]
              · rw [h2]
                simp [hc1, hcb']
            · rw [if_neg hab]
              have hne' : ¬ a = b := fun hh => hab hh.symm
              have hbeq : (a == b) = false := beq_eq_false_iff_ne.mpr hne'
              have hcontains : (b :: st.sessions).contains a
                  = st.sessions.contains a := by
                simp only [List.contains_cons, hbeq, Bool.false_or]
              refine ⟨?_, ?_⟩
              · rw [h1]
                simp only [hcontains, perAddr_append]
                have hpe : perAddr a [LEvent.accepted b,
                    LEvent.delivered b p] = [] := by
                  simp [perAddr, hab]
                rw [hpe, List.append_nil]
              · rw [h2]
                rw [hcontains]
          · rw [if_neg hq] at hstep
            cases hstep

/-- C9: in the UDP listener fan-out, the first datagram from an unknown
remote address is not lost: after any completed run from the initial
state, the address's event trace is exactly one accept event followed by
the deliveries of all its datagrams in arrival order (so the session is
handed to accept before the triggering payload is delivered), and the
address is in the session table exactly when it sent a datagram. -/
theorem listener_fanout (acts : List LAction) (st' : ListenerState)
    (a : String) (h : listenerRun initListener acts = some st') :
    perAddr a st'.events
      = (if dgramsFor a acts = [] then []
         else LEvent.accepted a ::
           (dgramsFor a acts).map (LEvent.delivered a))
    ∧ st'.sessions.contains a = !(dgramsFor a acts).isEmpty := by
  obtain ⟨h1, h2⟩ := listenerRun_perAddr acts initListener st' a h
  constructor
  · simpa [initListener, perAddr] using h1
  · simpa [initListener] using h2

/-- Concrete action sequence used by the C9 witness. -/
def exActs : List LAction :=
  [.dgram "x" [1], .appAccept, .dgram "x" [2], .dgram "y" []]

/-- The listener state `exActs` leads to. -/
def exListenerFinal : ListenerState :=
  { sessions := ["y", "x"]
    acceptQueue := ["y"]
    events := [.accepted "x", .delivered "x" [1], .delivered "x" [2],
               .accepted "y", .delivered "y" []] }

/-- Witness for C9: over the concrete run `exActs`, address "x" is
accepted once, before its two deliveries, which appear in arrival order. -/
theorem listener_fanout_witness :
    perAddr "x" exListenerFinal.events
      = (if dgramsFor "x" exActs = [] then []
         else LEvent.accepted "x" ::
           (dgramsFor "x" exActs).map (LEvent.delivered "x"))
    ∧ exListenerFinal.sessions.contains "x"
        = !(dgramsFor "x" exActs).isEmpty :=
  listener_fanout exActs exListenerFinal "x" (by rfl)

end ApKcp
